import Mathlib

/-!
# Verification of the voice_changer effect engine

Shallow embedding of `src/voice_changer.py`. Sample buffers are `List ℚ`
(exact arithmetic stands in for floating point), numpy arrays that a
primitive writes into are modelled explicitly, and the two external
`librosa` collaborators that a claim depends on are either modelled from
the spec (preemphasis) or taken as parameters (pitch shift, time stretch,
the sos filter, the Gaussian noise draws).
-/

/-- Python's `int()` applied to a float: truncation toward zero. -/
def pyInt (q : ℚ) : ℤ :=
  if 0 ≤ q then ⌊q⌋ else ⌈q⌉

/-- `np.clip(x, -1, 1)`. -/
def npClip (x : ℚ) : ℚ :=
  max (-1) (min 1 x)

/-- Largest absolute value of a buffer (0 for the empty buffer). -/
def maxAbs (l : List ℚ) : ℚ :=
  l.foldr (fun x m => max |x| m) 0

/-- `np.linspace a b n`: `n` evenly spaced points from `a` to `b`
(inclusive); for `n = 1` numpy returns `[a]`, matched here because
`ℚ` division by zero is zero. -/
def linspace (a b : ℚ) (n : ℕ) : List ℚ :=
  List.ofFn (n := n) fun k => a + (b - a) * k / ((n : ℚ) - 1)

/-- Unfolded form of the `apply_delay` loop: the value the loop leaves at
index `i`. For `i < ds` the slot keeps its `np.zeros_like` initial value;
for `ds = 0` the loop body reads the not-yet-written slot `i`, which still
holds 0, so the sample passes through unchanged. -/
def delayRec (input : ℕ → ℚ) (ds : ℕ) (f : ℚ) (i : ℕ) : ℚ :=
  if i < ds then 0
  else if ds = 0 then input i
  else input i + f * delayRec input ds f (i - ds)
termination_by i
decreasing_by
  rename_i h1 h2
  omega

/-- One iteration of the `apply_delay` loop body,
`delayed_audio[i] = audio_data[i] + feedback * delayed_audio[i - delay_samples]`,
guarded by the loop range `range(delay_samples, len(audio_data))`. -/
def delayStep (audio : List ℚ) (ds : ℕ) (f : ℚ) (st : List ℚ) (i : ℕ) : List ℚ :=
  if ds ≤ i then st.set i (audio.getD i 0 + f * st.getD (i - ds) 0) else st

/-- `apply_delay(audio_data, sr, delay_time, feedback)`:
`delay_samples = int(sr * delay_time)`, output starts as `np.zeros_like`
and is filled by the feedback loop. Faithful for `sr * delay_time ≥ 0`
(a negative product would make the Python loop index negative and wrap). -/
def apply_delay (audio : List ℚ) (sr delay_time feedback : ℚ) : List ℚ :=
  let ds := (pyInt (sr * delay_time)).toNat
  (List.range audio.length).foldl (delayStep audio ds feedback)
    (List.replicate audio.length 0)

theorem delayStep_apply (audio : List ℚ) (ds : ℕ) (f : ℚ) (st : List ℚ) (i : ℕ) :
    delayStep audio ds f st i =
      if ds ≤ i then st.set i (audio.getD i 0 + f * st.getD (i - ds) 0) else st :=
  rfl

theorem delayStep_length (audio : List ℚ) (ds : ℕ) (f : ℚ) (st : List ℚ) (i : ℕ) :
    (delayStep audio ds f st i).length = st.length := by
  rw [delayStep_apply]
  split <;> simp

theorem delayFold_length (audio : List ℚ) (ds : ℕ) (f : ℚ) :
    ∀ (js : List ℕ) (st : List ℚ),
      (js.foldl (delayStep audio ds f) st).length = st.length := by
  intro js
  induction js with
  | nil => intro st; rfl
  | cons j js ih =>
      intro st
      simp only [List.foldl_cons, ih, delayStep_length]

/-- Invariant of the `apply_delay` loop: after processing indices `< j`,
slot `i` holds `delayRec i` for `i < j` and the initial 0 above `j`. -/
theorem delayFold_invariant (audio : List ℚ) (ds : ℕ) (f : ℚ) :
    ∀ j : ℕ,
      ((List.range j).foldl (delayStep audio ds f)
          (List.replicate audio.length 0)).length = audio.length ∧
      ∀ i : ℕ, i < audio.length →
        ((List.range j).foldl (delayStep audio ds f)
            (List.replicate audio.length 0)).getD i 0 =
          if i < j then delayRec (fun k => audio.getD k 0) ds f i else 0 := by
  intro j
  induction j with
  | zero =>
      refine ⟨by simp, ?_⟩
      intro i hi
      simp [List.getElem?_getD_replicate_default_eq]
  | succ j ih =>
      obtain ⟨ihlen, ihval⟩ := ih
      set st := (List.range j).foldl (delayStep audio ds f)
        (List.replicate audio.length 0) with hst
      have hfold : (List.range (j + 1)).foldl (delayStep audio ds f)
          (List.replicate audio.length 0) = delayStep audio ds f st j := by
        rw [hst, List.range_succ, List.foldl_append, List.foldl_cons, List.foldl_nil]
      refine ⟨by rw [hfold, delayStep_length, ihlen], ?_⟩
      intro i hi
      rw [hfold, delayStep_apply]
      by_cases hds : ds ≤ j
      · rw [if_pos hds]
        by_cases hij : i = j
        · subst hij
          have hjlt : i < st.length := by rw [ihlen]; exact hi
          rw [List.getD_eq_getElem _ _ (by simpa using hjlt), List.getElem_set_self]
          have hrd : i - ds < audio.length := lt_of_le_of_lt (Nat.sub_le _ _) hi
          have hv := ihval (i - ds) hrd
          by_cases hds0 : ds = 0
          · subst hds0
            simp only [Nat.sub_zero] at hv ⊢
            rw [hv, if_neg (lt_irrefl i), if_pos (Nat.lt_succ_self i)]
            conv_rhs => rw [delayRec]
            simp [Nat.not_lt_zero]
          · have hlt : i - ds < i := by omega
            rw [hv, if_pos hlt, if_pos (Nat.lt_succ_self i)]
            conv_rhs => rw [delayRec]
            rw [if_neg (by omega : ¬ i < ds), if_neg hds0]
        · have hi' : i < st.length := by rw [ihlen]; exact hi
          rw [List.getD_eq_getElem _ _ (by simpa using hi'),
            List.getElem_set_ne (by omega), ← List.getD_eq_getElem, ihval i hi]
          by_cases hij2 : i < j
          · rw [if_pos hij2, if_pos (by omega)]
          · rw [if_neg hij2, if_neg (by omega : ¬ i < j + 1)]
      · rw [if_neg hds, ihval i hi]
        by_cases hij : i = j
        · subst hij
          rw [if_neg (lt_irrefl i), if_pos (Nat.lt_succ_self i), delayRec,
            if_pos (by omega : i < ds)]
        · by_cases hij2 : i < j
          · rw [if_pos hij2, if_pos (by omega)]
          · rw [if_neg hij2, if_neg (by omega : ¬ i < j + 1)]

theorem apply_delay_length (audio : List ℚ) (sr delay_time feedback : ℚ) :
    (apply_delay audio sr delay_time feedback).length = audio.length := by
  unfold apply_delay
  exact (delayFold_invariant audio _ feedback audio.length).1

/-- The loop in `apply_delay` computes exactly `delayRec`. -/
theorem apply_delay_getD (audio : List ℚ) (sr delay_time feedback : ℚ)
    (i : ℕ) (hi : i < audio.length) :
    (apply_delay audio sr delay_time feedback).getD i 0 =
      delayRec (fun k => audio.getD k 0) ((pyInt (sr * delay_time)).toNat)
        feedback i := by
  unfold apply_delay
  rw [(delayFold_invariant audio _ feedback audio.length).2 i hi, if_pos hi]

/-- `apply_echo(audio_data, sr, delay_factor, decay)`: copies the input and
adds `decay * audio_data[i - delay_samples]` for `i ≥ delay_samples`; the
loop reads only the original input, so it is a per-index map. Faithful for
`sr * delay_factor ≥ 0`. -/
def apply_echo (audio : List ℚ) (sr delay_factor decay : ℚ) : List ℚ :=
  let ds := (pyInt (sr * delay_factor)).toNat
  List.ofFn fun i : Fin audio.length =>
    if ds ≤ i.1 then audio.get i + decay * audio.getD (i.1 - ds) 0 else audio.get i

/-- `apply_chorus(audio_data, sr, depth, rate)`. The transcendental
modulator `sin(2π·rate·i/sr)` is taken as a parameter `sinv` (the sequence
of sine values); the rest follows the source:
`modulator[i] = sinv i * depth * sr`, `delay_index = int(i - modulator[i])`,
and the copied sample is incremented by `audio_data[delay_index]` when
`0 ≤ delay_index < len(audio_data)`. -/
def apply_chorus (sinv : ℕ → ℚ) (audio : List ℚ) (depth sr : ℚ) : List ℚ :=
  List.ofFn fun i : Fin audio.length =>
    let di := pyInt ((i.1 : ℚ) - sinv i.1 * depth * sr)
    if 0 ≤ di ∧ di < (audio.length : ℤ) then audio.get i + audio.getD di.toNat 0
    else audio.get i

/-- Modelled from the spec: `librosa.effects.preemphasis` is an external
collaborator (not in src); per the spec it is the one-pole difference
`y[i] = x[i] − α·x[i−1]` with `α ≈ 0.97`, the out-of-range read `x[−1]`
contributing zero (the spec's boundary policy). -/
def preemphasis (audio : List ℚ) : List ℚ :=
  List.ofFn fun i : Fin audio.length =>
    audio.get i - (97 / 100) * (if i.1 = 0 then 0 else audio.getD (i.1 - 1) 0)

/-- `apply_reverb(audio_data, sr, reverb_amount)`: preemphasis, then
`np.clip(reverb_data * reverb_amount, -1, 1)`. -/
def apply_reverb (audio : List ℚ) (sr reverb_amount : ℚ) : List ℚ :=
  (preemphasis audio).map fun x => npClip (x * reverb_amount)

/-- `apply_haunted_voice(audio_data, sr)`: reverb at 0.9 then echo with
`delay_factor=0.3`, `decay=0.8`. -/
def apply_haunted_voice (audio : List ℚ) (sr : ℚ) : List ℚ :=
  apply_echo (apply_reverb audio sr (9 / 10)) sr (3 / 10) (8 / 10)

/-- The spec's words for the "haunted" preset:
"haunted" = Reverb(0.9) → Echo(delay=0.3s, decay=0.8). Stated separately
from the source definition so the two can be compared. -/
def hauntedSpecChain (audio : List ℚ) (sr : ℚ) : List ℚ :=
  apply_echo (apply_reverb audio sr (9 / 10)) sr (3 / 10) (8 / 10)

/-- `apply_reversed_voice(audio_data)`: `audio_data[::-1]`. -/
def apply_reversed_voice (audio : List ℚ) : List ℚ :=
  audio.reverse

/-- The two in-place fade lines of `apply_girl_voice`:
`girl_voice[:fade_length] *= np.linspace(0, 1, fade_length)` then
`girl_voice[-fade_length:] *= np.linspace(1, 0, fade_length)` (the second
line acts on the already faded-in buffer). Only called when the numpy
broadcasts succeed. -/
def fadeEdges (g : List ℚ) (fl : ℕ) : List ℚ :=
  let g1 := List.zipWith (fun x w => x * w) (g.take fl) (linspace 0 1 fl) ++ g.drop fl
  g1.take (g1.length - fl) ++
    List.zipWith (fun x w => x * w) (g1.drop (g1.length - fl)) (linspace 1 0 fl)

/-- `apply_girl_voice(audio_data, sr)`: pitch shift by +12 semitones and
time stretch at rate 1.2 are external `librosa` collaborators, taken as
parameters `ps`/`ts`; then a fade of `fade_length = int(0.03 * sr)` samples
is applied in place to the stretched buffer. The numpy broadcast
`girl_voice[:fl] *= linspace(0,1,fl)` (and the tail counterpart, which for
`fl = 0` is the full slice `girl_voice[0:]` against an empty ramp) raises
`ValueError` unless `1 ≤ fl ≤ len` or the buffer and ramp are both empty;
that failure is `none`. -/
def apply_girl_voice (ps ts : List ℚ → List ℚ) (audio : List ℚ) (sr : ℚ) :
    Option (List ℚ) :=
  let g := ts (ps audio)
  let fl := (pyInt ((3 / 100) * sr)).toNat
  if (1 ≤ fl ∧ fl ≤ g.length) ∨ (fl = 0 ∧ g.length = 0) then some (fadeEdges g fl)
  else none

/-- The `apply_stuttering_voice` loop, `for i in range(0, len(audio_data),
segment_length)`: at each index it appends `audio_data[i:i+S]` and
`audio_data[i:i+int(S/2)]`. Requires `0 < S` (the Python loop would raise
for step 0 and is empty for a negative step, both handled by the caller). -/
def stutterLoop (audio : List ℚ) (S : ℕ) (i : ℕ) : List ℚ :=
  if h : i < audio.length ∧ 0 < S then
    ((audio.drop i).take S ++ (audio.drop i).take (S / 2)) ++
      stutterLoop audio S (i + S)
  else []
termination_by audio.length - i
decreasing_by
  omega

/-- `apply_stuttering_voice(audio_data, sr, stutter_factor)`:
`segment_length = int(sr * stutter_factor)`. A zero segment length makes
`range(0, len, 0)` raise `ValueError` (`none`); a negative one makes the
range empty, so the result is the empty array. -/
def apply_stuttering_voice (audio : List ℚ) (sr stutter_factor : ℚ) :
    Option (List ℚ) :=
  let S := pyInt (sr * stutter_factor)
  if S = 0 then none
  else if S < 0 then some []
  else some (stutterLoop audio S.toNat 0)

/-- The contiguous segments `audio[i:i+S]` in order. -/
def segmentsOf (S : ℕ) (l : List ℚ) : List (List ℚ) :=
  if h : l ≠ [] ∧ 0 < S then l.take S :: segmentsOf S (l.drop S) else []
termination_by l.length
decreasing_by
  have : l.length ≠ 0 := fun hlen => h.1 (List.eq_nil_of_length_eq_zero hlen)
  simp only [List.length_drop]
  omega

/-- Closed form for the stutter output length on a tail of length `m`:
each full segment contributes `S + S/2`, a final partial segment of length
`r = m % S` contributes `r + min (S/2) r`. -/
def stutterLen (S m : ℕ) : ℕ :=
  (m / S) * (S + S / 2) + (if m % S = 0 then 0 else m % S + min (S / 2) (m % S))

theorem stutterLoop_eq_segments (audio : List ℚ) (S : ℕ) (hS : 0 < S) :
    ∀ i : ℕ,
      stutterLoop audio S i =
        ((segmentsOf S (audio.drop i)).map fun c => c ++ c.take (S / 2)).flatten := by
  have key : ∀ m : ℕ, ∀ i : ℕ, audio.length - i ≤ m →
      stutterLoop audio S i =
        ((segmentsOf S (audio.drop i)).map fun c => c ++ c.take (S / 2)).flatten := by
    intro m
    induction m with
    | zero =>
        intro i hle
        have hge : audio.length ≤ i := by omega
        rw [stutterLoop, dif_neg (by omega), segmentsOf,
          dif_neg (by simp [List.drop_eq_nil_iff, hge])]
        simp
    | succ m ih =>
        intro i hle
        by_cases hlt : i < audio.length
        · have hne : audio.drop i ≠ [] := by
            simp [List.drop_eq_nil_iff]
            omega
          rw [stutterLoop, dif_pos ⟨hlt, hS⟩, segmentsOf, dif_pos ⟨hne, hS⟩]
          simp only [List.map_cons, List.flatten_cons]
          rw [List.drop_drop, ih (i + S) (by omega), List.take_take,
            Nat.min_eq_left (Nat.div_le_self S 2), List.append_assoc]
        · rw [stutterLoop, dif_neg (by omega), segmentsOf,
            dif_neg (by simp [List.drop_eq_nil_iff]; omega)]
          simp
  intro i
  exact key (audio.length - i) i le_rfl

theorem stutterLen_zero (S : ℕ) : stutterLen S 0 = 0 := by
  simp [stutterLen]

theorem stutterLen_step (S m : ℕ) (hS : 0 < S) (hm : 0 < m) :
    stutterLen S m = (min S m + min (S / 2) m) + stutterLen S (m - S) := by
  by_cases hms : S ≤ m
  · unfold stutterLen
    rw [Nat.div_eq_sub_div hS hms, Nat.mod_eq_sub_mod hms,
      Nat.min_eq_left hms, Nat.min_eq_left (le_trans (Nat.div_le_self S 2) hms)]
    generalize (m - S) / S = a
    generalize hb : (m - S) % S = b
    generalize (if b = 0 then 0 else b + min (S / 2) b) = t
    generalize S + S / 2 = c
    ring
  · have hlt : m < S := Nat.lt_of_not_le hms
    have hm0 : m - S = 0 := by omega
    unfold stutterLen
    rw [hm0, Nat.div_eq_of_lt hlt, Nat.mod_eq_of_lt hlt, if_neg (by omega),
      Nat.min_eq_right (le_of_lt hlt), Nat.zero_div, Nat.zero_mod, if_pos rfl]
    omega

theorem stutterLoop_length (audio : List ℚ) (S : ℕ) (hS : 0 < S) :
    ∀ i : ℕ, (stutterLoop audio S i).length = stutterLen S (audio.length - i) := by
  have key : ∀ m : ℕ, ∀ i : ℕ, audio.length - i ≤ m →
      (stutterLoop audio S i).length = stutterLen S (audio.length - i) := by
    intro m
    induction m with
    | zero =>
        intro i hle
        rw [stutterLoop, dif_neg (by omega), (by omega : audio.length - i = 0),
          stutterLen_zero]
        rfl
    | succ m ih =>
        intro i hle
        by_cases hlt : i < audio.length
        · rw [stutterLoop, dif_pos ⟨hlt, hS⟩]
          simp only [List.length_append, List.length_take, List.length_drop]
          rw [ih (i + S) (by omega),
            (by omega : audio.length - (i + S) = audio.length - i - S),
            stutterLen_step S (audio.length - i) hS (by omega)]
        · rw [stutterLoop, dif_neg (by omega), (by omega : audio.length - i = 0),
            stutterLen_zero]
          rfl
  intro i
  exact key (audio.length - i) i le_rfl

/-- `apply_whisper_voice(audio_data)`: scales by 0.2 and adds draws of
`np.random.normal(0, 0.02, len(audio_data))` from the ambient (unseeded)
global RNG; the drawn values are the stream `noise`. -/
def apply_whisper_voice (noise : ℕ → ℚ) (audio : List ℚ) : List ℚ :=
  List.ofFn fun i : Fin audio.length => audio.get i * (2 / 10) + noise i.1

/-- `apply_digital_glitch_voice(audio_data, sr)`: adds
`0.05 * np.random.normal(size=len(audio_data))`; the standard-normal draws
are the stream `noise`. -/
def apply_digital_glitch_voice (noise : ℕ → ℚ) (audio : List ℚ) : List ℚ :=
  List.ofFn fun i : Fin audio.length => audio.get i + (5 / 100) * noise i.1

/-- `apply_radio_voice(audio_data, sr)`: the Butterworth bandpass
(`butter`/`sosfilt`, an external scipy collaborator, length-preserving) is
the parameter `sosf`; then draws of `np.random.normal(0, 0.01, len)` are
added. -/
def apply_radio_voice (sosf : List ℚ → List ℚ) (noise : ℕ → ℚ)
    (audio : List ℚ) : List ℚ :=
  let filtered := sosf audio
  List.ofFn fun i : Fin filtered.length => filtered.get i + noise i.1

/-- The primitives compared in the determinism claim, with their
parameters; the ambient RNG draws are threaded through every run so that
dependence on them is observable. -/
inductive Prim where
  | delay (sr delay_time feedback : ℚ)
  | chorus (sinv : ℕ → ℚ) (depth sr : ℚ)
  | echo (sr delay_factor decay : ℚ)
  | reverb (sr amount : ℚ)
  | reversed
  | stutter (sr stutter_factor : ℚ)
  | haunted (sr : ℚ)
  | whisper
  | radio (sosf : List ℚ → List ℚ)
  | glitch

/-- The primitives whose source calls `np.random` (unseeded). -/
def Prim.noisy : Prim → Bool
  | .whisper => true
  | .radio _ => true
  | .glitch => true
  | _ => false

/-- Run one primitive on a buffer, with `noise` the values the global RNG
would hand out during the run. -/
def runPrim (p : Prim) (noise : ℕ → ℚ) (audio : List ℚ) : Option (List ℚ) :=
  match p with
  | .delay sr dt f => some (apply_delay audio sr dt f)
  | .chorus sinv depth sr => some (apply_chorus sinv audio depth sr)
  | .echo sr df dec => some (apply_echo audio sr df dec)
  | .reverb sr a => some (apply_reverb audio sr a)
  | .reversed => some (apply_reversed_voice audio)
  | .stutter sr sf => apply_stuttering_voice audio sr sf
  | .haunted sr => some (apply_haunted_voice audio sr)
  | .whisper => some (apply_whisper_voice noise audio)
  | .radio sosf => some (apply_radio_voice sosf noise audio)
  | .glitch => some (apply_digital_glitch_voice noise audio)

/-- A minimal store of numpy arrays, so that in-place mutation and
aliasing between a primitive's input and its result are observable. -/
structure Heap where
  arrays : List (List ℚ)

/-- Allocate a fresh array, returning its reference. -/
def Heap.alloc (h : Heap) (v : List ℚ) : Heap × ℕ :=
  (⟨h.arrays ++ [v]⟩, h.arrays.length)

/-- Read the array behind a reference. -/
def Heap.read (h : Heap) (r : ℕ) : List ℚ :=
  h.arrays.getD r []

/-- Overwrite the array behind a reference. -/
def Heap.write (h : Heap) (r : ℕ) (v : List ℚ) : Heap :=
  ⟨h.arrays.set r v⟩

/-- `increase_volume(audio_data, volume_factor)`: `audio_data *= volume_factor`
multiplies the argument array in place and returns that same array. -/
def increase_volume (volume_factor : ℚ) (h : Heap) (r : ℕ) : Heap × ℕ :=
  let scaled := (h.read r).map fun x => x * volume_factor
  (h.write r scaled, r)

/-- Reference-level `apply_delay`: reads the input, allocates
`np.zeros_like` output, and the loop writes only into that fresh array;
its net effect on the heap is the final contents `apply_delay`. -/
def apply_delay_ref (sr delay_time feedback : ℚ) (h : Heap) (r : ℕ) :
    Heap × ℕ :=
  let audio := h.read r
  let (h1, out) := h.alloc (List.replicate audio.length 0)
  (h1.write out (apply_delay audio sr delay_time feedback), out)

/-- Reference-level `apply_echo`: `np.copy` allocates a fresh array and
the loop writes only into the copy. -/
def apply_echo_ref (sr delay_factor decay : ℚ) (h : Heap) (r : ℕ) :
    Heap × ℕ :=
  let audio := h.read r
  let (h1, out) := h.alloc audio
  (h1.write out (apply_echo audio sr delay_factor decay), out)

/-- Reference-level `apply_chorus`: `np.copy` then in-place increments on
the copy, reading only the original input. -/
def apply_chorus_ref (sinv : ℕ → ℚ) (depth sr : ℚ) (h : Heap) (r : ℕ) :
    Heap × ℕ :=
  let audio := h.read r
  let (h1, out) := h.alloc audio
  (h1.write out (apply_chorus sinv audio depth sr), out)

/-- Reference-level `apply_girl_voice`: `librosa` pitch shift and time
stretch return fresh arrays (externals `ps`, `ts`), and the in-place fades
act on that fresh array; a failing numpy broadcast is `none`. -/
def apply_girl_voice_ref (ps ts : List ℚ → List ℚ) (sr : ℚ) (h : Heap)
    (r : ℕ) : Option (Heap × ℕ) :=
  let audio := h.read r
  let g := ts (ps audio)
  let (h1, out) := h.alloc g
  let fl := (pyInt ((3 / 100) * sr)).toNat
  if (1 ≤ fl ∧ fl ≤ g.length) ∨ (fl = 0 ∧ g.length = 0) then
    some (h1.write out (fadeEdges g fl), out)
  else none

theorem Heap.read_alloc_of_lt (h : Heap) (v : List ℚ) (r : ℕ)
    (hr : r < h.arrays.length) : (h.alloc v).1.read r = h.read r := by
  unfold Heap.alloc Heap.read
  simp only
  rw [List.getD_eq_getElem _ _ (by simp; omega), List.getElem_append_left hr,
    List.getD_eq_getElem _ _ hr]

theorem Heap.read_write_ne (h : Heap) (r s : ℕ) (v : List ℚ) (hne : s ≠ r) :
    (h.write s v).read r = h.read r := by
  unfold Heap.write Heap.read
  simp only
  by_cases hr : r < h.arrays.length
  · rw [List.getD_eq_getElem _ _ (by simpa using hr),
      List.getElem_set_ne (by omega), List.getD_eq_getElem _ _ hr]
  · rw [List.getD_eq_getElem?_getD, List.getElem?_eq_none (by simp; omega),
      List.getD_eq_getElem?_getD, List.getElem?_eq_none (by omega)]

theorem maxAbs_nonneg (l : List ℚ) : 0 ≤ maxAbs l := by
  induction l with
  | nil => exact le_refl 0
  | cons x xs ih => exact le_trans ih (le_max_right _ _)

theorem abs_le_maxAbs (l : List ℚ) (x : ℚ) (hx : x ∈ l) : |x| ≤ maxAbs l := by
  induction l with
  | nil => cases hx
  | cons y ys ih =>
      rcases List.mem_cons.mp hx with h | h
      · subst h
        exact le_max_left _ _
      · exact le_trans (ih h) (le_max_right _ _)

theorem getD_abs_le_maxAbs (l : List ℚ) (k : ℕ) : |l.getD k 0| ≤ maxAbs l := by
  by_cases hk : k < l.length
  · rw [List.getD_eq_getElem l _ hk]
    exact abs_le_maxAbs l _ (List.getElem_mem hk)
  · rw [List.getD_eq_getElem?_getD, List.getElem?_eq_none (by omega)]
    simpa using maxAbs_nonneg l

/-- The IIR feedback recursion is geometrically bounded: with at least one
sample of delay and `|f| < 1`, every output sample is at most
`M / (1 - |f|)` in magnitude, `M` a bound on the input. -/
theorem delayRec_bound (input : ℕ → ℚ) (ds : ℕ) (f : ℚ) (hds : 1 ≤ ds)
    (hf : |f| < 1) (M : ℚ) (hM : 0 ≤ M) (hin : ∀ k, |input k| ≤ M) :
    ∀ i : ℕ, |delayRec input ds f i| ≤ M / (1 - |f|) := by
  have hpos : 0 < 1 - |f| := by linarith
  have hB : 0 ≤ M / (1 - |f|) := div_nonneg hM (le_of_lt hpos)
  intro i
  induction i using Nat.strong_induction_on with
  | _ i ih =>
      rw [delayRec]
      by_cases hi : i < ds
      · rw [if_pos hi]
        simpa using hB
      · rw [if_neg hi, if_neg (by omega : ¬ ds = 0)]
        have hrec := ih (i - ds) (by omega)
        calc |input i + f * delayRec input ds f (i - ds)|
            ≤ |input i| + |f * delayRec input ds f (i - ds)| := abs_add _ _
          _ = |input i| + |f| * |delayRec input ds f (i - ds)| := by rw [abs_mul]
          _ ≤ M + |f| * (M / (1 - |f|)) := by
              have h1 := hin i
              have h2 : |f| * |delayRec input ds f (i - ds)| ≤
                  |f| * (M / (1 - |f|)) :=
                mul_le_mul_of_nonneg_left hrec (abs_nonneg f)
              linarith
          _ = M / (1 - |f|) := by
              field_simp
              ring

theorem apply_echo_length (audio : List ℚ) (sr delay_factor decay : ℚ) :
    (apply_echo audio sr delay_factor decay).length = audio.length := by
  unfold apply_echo
  simp

theorem apply_echo_getD (audio : List ℚ) (sr delay_factor decay : ℚ) (i : ℕ)
    (hi : i < audio.length) :
    (apply_echo audio sr delay_factor decay).getD i 0 =
      if (pyInt (sr * delay_factor)).toNat ≤ i then
        audio.getD i 0 + decay * audio.getD (i - (pyInt (sr * delay_factor)).toNat) 0
      else audio.getD i 0 := by
  unfold apply_echo
  rw [List.getD_eq_getElem _ _ (by simpa using hi), List.getElem_ofFn,
    List.getD_eq_getElem _ _ hi]
  rfl

theorem apply_chorus_length (sinv : ℕ → ℚ) (audio : List ℚ) (depth sr : ℚ) :
    (apply_chorus sinv audio depth sr).length = audio.length := by
  unfold apply_chorus
  simp

theorem apply_chorus_getD (sinv : ℕ → ℚ) (audio : List ℚ) (depth sr : ℚ)
    (i : ℕ) (hi : i < audio.length) :
    (apply_chorus sinv audio depth sr).getD i 0 =
      if 0 ≤ pyInt ((i : ℚ) - sinv i * depth * sr) ∧
          pyInt ((i : ℚ) - sinv i * depth * sr) < (audio.length : ℤ) then
        audio.getD i 0 + audio.getD (pyInt ((i : ℚ) - sinv i * depth * sr)).toNat 0
      else audio.getD i 0 := by
  unfold apply_chorus
  rw [List.getD_eq_getElem _ _ (by simpa using hi), List.getElem_ofFn,
    List.getD_eq_getElem _ _ hi]
  rfl

/-- C2 counterexample: with buffer `[1, 1]`, `sr = 1`, `delay_time = 1`
(so `delay_samples = 1`) and `feedback = 0`, the claim demands
`output[0] = input[0] = 1` below the delay window, but `apply_delay`
leaves the `np.zeros_like` initial value `0` there. -/
theorem apply_delay_leading_sample_cex :
    (pyInt ((1 : ℚ) * 1)).toNat = 1 ∧
    ([1, 1] : List ℚ).getD 0 0 = 1 ∧
    (apply_delay [1, 1] 1 1 0).getD 0 0 = 0 := by
  have hpy : pyInt ((1 : ℚ) * 1) = 1 := by norm_num [pyInt]
  have hds : (pyInt ((1 : ℚ) * 1)).toNat = 1 := by rw [hpy]; rfl
  refine ⟨hds, rfl, ?_⟩
  rw [apply_delay_getD _ _ _ _ 0 (by norm_num), hds, delayRec]
  norm_num

/-- C2 (amended): for `sr > 0`, `delay_time ≥ 0` and
`delay_samples = int(sr * delay_time)` (truncation, not rounding),
`apply_delay` preserves length, leaves `0` (not the input) below the delay
window, satisfies `output[i] = input[i] + feedback · output[i − ds]` for
`i ≥ ds` when `ds ≥ 1`, and acts as the identity when `ds = 0` (the loop
body then reads the not-yet-written slot, still zero). -/
theorem apply_delay_recurrence (audio : List ℚ) (sr delay_time feedback : ℚ)
    (ds : ℕ) (hds : ds = (pyInt (sr * delay_time)).toNat)
    (hsr : 0 < sr) (hdt : 0 ≤ delay_time) :
    (apply_delay audio sr delay_time feedback).length = audio.length ∧
    (∀ i : ℕ, i < audio.length → i < ds →
      (apply_delay audio sr delay_time feedback).getD i 0 = 0) ∧
    (0 < ds → ∀ i : ℕ, i < audio.length → ds ≤ i →
      (apply_delay audio sr delay_time feedback).getD i 0 =
        audio.getD i 0 +
          feedback * (apply_delay audio sr delay_time feedback).getD (i - ds) 0) ∧
    (ds = 0 → ∀ i : ℕ, i < audio.length →
      (apply_delay audio sr delay_time feedback).getD i 0 = audio.getD i 0) := by
  refine ⟨apply_delay_length audio sr delay_time feedback, ?_, ?_, ?_⟩
  · intro i hi hlt
    rw [apply_delay_getD _ _ _ _ i hi, ← hds, delayRec, if_pos hlt]
  · intro hpos i hi hge
    rw [apply_delay_getD _ _ _ _ i hi,
      apply_delay_getD _ _ _ _ (i - ds) (by omega), ← hds]
    conv_lhs => rw [delayRec]
    rw [if_neg (by omega : ¬ i < ds), if_neg (by omega : ¬ ds = 0)]
  · intro h0 i hi
    rw [apply_delay_getD _ _ _ _ i hi, ← hds, delayRec,
      if_neg (by omega : ¬ i < ds), if_pos h0]

/-- Witness for C2 at buffer `[1, 1, 1]`, `sr = 1`, `delay_time = 1`,
`feedback = 1/2`. -/
theorem apply_delay_recurrence_witness :
    ((1 : ℕ) = (pyInt ((1 : ℚ) * 1)).toNat ∧ (0 : ℚ) < 1 ∧ (0 : ℚ) ≤ 1) ∧
    ((apply_delay [1, 1, 1] 1 1 (1 / 2)).length = ([1, 1, 1] : List ℚ).length ∧
    (∀ i : ℕ, i < ([1, 1, 1] : List ℚ).length → i < 1 →
      (apply_delay [1, 1, 1] 1 1 (1 / 2)).getD i 0 = 0) ∧
    (0 < 1 → ∀ i : ℕ, i < ([1, 1, 1] : List ℚ).length → 1 ≤ i →
      (apply_delay [1, 1, 1] 1 1 (1 / 2)).getD i 0 =
        ([1, 1, 1] : List ℚ).getD i 0 +
          (1 / 2) * (apply_delay [1, 1, 1] 1 1 (1 / 2)).getD (i - 1) 0) ∧
    (1 = 0 → ∀ i : ℕ, i < ([1, 1, 1] : List ℚ).length →
      (apply_delay [1, 1, 1] 1 1 (1 / 2)).getD i 0 =
        ([1, 1, 1] : List ℚ).getD i 0)) :=
  ⟨⟨by norm_num [pyInt], by norm_num, by norm_num⟩,
    apply_delay_recurrence [1, 1, 1] 1 1 (1 / 2) 1 (by norm_num [pyInt])
      (by norm_num) (by norm_num)⟩

/-- C3: with at least one sample of delay and `|feedback| < 1`, every
sample of the `apply_delay` output is bounded by
`maxAbs input / (1 − |feedback|)`, independent of the buffer length. -/
theorem apply_delay_bounded (audio : List ℚ) (sr delay_time feedback : ℚ)
    (ds : ℕ) (hds : ds = (pyInt (sr * delay_time)).toNat) (h1 : 1 ≤ ds)
    (hf : |feedback| < 1) :
    ∀ x ∈ apply_delay audio sr delay_time feedback,
      |x| ≤ maxAbs audio / (1 - |feedback|) := by
  intro x hx
  rcases List.mem_iff_getElem.mp hx with ⟨i, hilen, hget⟩
  have hlen : i < audio.length := by
    rw [apply_delay_length] at hilen
    exact hilen
  have hxval : x = (apply_delay audio sr delay_time feedback).getD i 0 := by
    rw [List.getD_eq_getElem _ _ hilen, hget]
  rw [hxval, apply_delay_getD _ _ _ _ i hlen, ← hds]
  exact delayRec_bound _ ds feedback h1 hf (maxAbs audio) (maxAbs_nonneg audio)
    (fun k => getD_abs_le_maxAbs audio k) i

/-- Witness for C3 at buffer `[1]`, `sr = 1`, `delay_time = 1`,
`feedback = 1/2`. -/
theorem apply_delay_bounded_witness :
    ((1 : ℕ) = (pyInt ((1 : ℚ) * 1)).toNat ∧ |(1 : ℚ) / 2| < 1) ∧
    (∀ x ∈ apply_delay [1] 1 1 (1 / 2),
      |x| ≤ maxAbs [1] / (1 - |(1 : ℚ) / 2|)) :=
  ⟨⟨by norm_num [pyInt], by rw [abs_of_pos (by norm_num : (0:ℚ) < 1/2)]; norm_num⟩,
    apply_delay_bounded [1] 1 1 (1 / 2) 1 (by norm_num [pyInt]) (le_refl 1)
      (by rw [abs_of_pos (by norm_num : (0:ℚ) < 1/2)]; norm_num)⟩

/-- C7: the "haunted" preset is exactly the spec's chain
Reverb(0.9) → Echo(delay=0.3s, decay=0.8). -/
theorem haunted_is_reverb_then_echo (audio : List ℚ) (sr : ℚ) :
    apply_haunted_voice audio sr = hauntedSpecChain audio sr ∧
    apply_haunted_voice audio sr =
      apply_echo (apply_reverb audio sr (9 / 10)) sr (3 / 10) (8 / 10) :=
  ⟨rfl, rfl⟩

/-- C8: each chorus output sample adds `input[delay_index]` exactly when
the truncated modulated offset `int(i - m[i])` is in `[0, length)`, and is
the unchanged input sample otherwise. -/
theorem chorus_sample_rule (sinv : ℕ → ℚ) (audio : List ℚ) (depth sr : ℚ)
    (i : ℕ) (hi : i < audio.length) (di : ℤ)
    (hdi : di = pyInt ((i : ℚ) - sinv i * depth * sr)) :
    (apply_chorus sinv audio depth sr).getD i 0 =
      if 0 ≤ di ∧ di < (audio.length : ℤ) then
        audio.getD i 0 + audio.getD di.toNat 0
      else audio.getD i 0 := by
  subst hdi
  exact apply_chorus_getD sinv audio depth sr i hi

/-- Witness for C8 at `sinv = const 1`, buffer `[1, 2]`, `depth = 1`,
`sr = 1`, index `1` (offset `int(1 − 1) = 0`, in range). -/
theorem chorus_sample_rule_witness :
    (1 < ([1, 2] : List ℚ).length ∧
      (0 : ℤ) = pyInt ((1 : ℚ) - (fun _ : ℕ => (1 : ℚ)) 1 * 1 * 1)) ∧
    ((apply_chorus (fun _ => 1) [1, 2] 1 1).getD 1 0 =
      if 0 ≤ (0 : ℤ) ∧ (0 : ℤ) < (([1, 2] : List ℚ).length : ℤ) then
        ([1, 2] : List ℚ).getD 1 0 + ([1, 2] : List ℚ).getD (0 : ℤ).toNat 0
      else ([1, 2] : List ℚ).getD 1 0) :=
  ⟨⟨by norm_num, by norm_num [pyInt]⟩,
    chorus_sample_rule (fun _ => 1) [1, 2] 1 1 1 (by norm_num) 0
      (by norm_num [pyInt])⟩

/-- C9: `apply_reversed_voice` is an involution and preserves length. -/
theorem reversed_voice_involution (audio : List ℚ) :
    apply_reversed_voice (apply_reversed_voice audio) = audio ∧
    (apply_reversed_voice audio).length = audio.length :=
  ⟨List.reverse_reverse audio, List.length_reverse audio⟩

/-- C10: `apply_echo` preserves length, leaves every sample before the
delay window unchanged, and is the identity when the delay window is at
least the buffer length (stated on the faithful domain of non-negative
rate and delay factor). -/
theorem apply_echo_keeps_leading_samples (audio : List ℚ)
    (sr delay_factor decay : ℚ) (ds : ℕ)
    (hds : ds = (pyInt (sr * delay_factor)).toNat)
    (hsr : 0 ≤ sr) (hdf : 0 ≤ delay_factor) :
    (apply_echo audio sr delay_factor decay).length = audio.length ∧
    (∀ i : ℕ, i < audio.length → i < ds →
      (apply_echo audio sr delay_factor decay).getD i 0 = audio.getD i 0) ∧
    (audio.length ≤ ds → apply_echo audio sr delay_factor decay = audio) := by
  refine ⟨apply_echo_length audio sr delay_factor decay, ?_, ?_⟩
  · intro i hi hlt
    rw [apply_echo_getD audio sr delay_factor decay i hi, ← hds,
      if_neg (by omega : ¬ ds ≤ i)]
  · intro hle
    apply List.ext_getElem (apply_echo_length audio sr delay_factor decay)
    intro i h1 h2
    have hgd := apply_echo_getD audio sr delay_factor decay i h2
    rw [← hds, if_neg (by omega : ¬ ds ≤ i)] at hgd
    rw [← List.getD_eq_getElem _ 0 h1, ← List.getD_eq_getElem _ 0 h2, hgd]

/-- Witness for C10 at buffer `[1, 2]`, `sr = 1`, `delay_factor = 3`,
`decay = 1/2` (delay window of 3 samples exceeds the buffer). -/
theorem apply_echo_keeps_leading_samples_witness :
    ((3 : ℕ) = (pyInt ((1 : ℚ) * 3)).toNat ∧ (0 : ℚ) ≤ 1 ∧ (0 : ℚ) ≤ 3) ∧
    ((apply_echo [1, 2] 1 3 (1 / 2)).length = ([1, 2] : List ℚ).length ∧
    (∀ i : ℕ, i < ([1, 2] : List ℚ).length → i < 3 →
      (apply_echo [1, 2] 1 3 (1 / 2)).getD i 0 = ([1, 2] : List ℚ).getD i 0) ∧
    (([1, 2] : List ℚ).length ≤ 3 → apply_echo [1, 2] 1 3 (1 / 2) = [1, 2])) :=
  ⟨⟨by rw [show pyInt ((1 : ℚ) * 3) = 3 from by norm_num [pyInt]]; rfl,
      by norm_num, by norm_num⟩,
    apply_echo_keeps_leading_samples [1, 2] 1 3 (1 / 2) 3
      (by rw [show pyInt ((1 : ℚ) * 3) = 3 from by norm_num [pyInt]]; rfl)
      (by norm_num) (by norm_num)⟩

/-- C6 counterexample: at `sr = 23`, `stutter_factor = 1/2`, `L = 100`,
the claim's rounded segment length is `round(11.5) = 12` (even,
`0 < 12 ≤ 100`) and its formula then predicts 152 output samples, but the
source computes `segment_length = int(11.5) = 11` and produces 146. -/
theorem stutter_rounded_segment_cex :
    round ((23 : ℚ) * (1 / 2)) = 12 ∧ (12 : ℕ) % 2 = 0 ∧ 0 < (12 : ℕ) ∧
    (12 : ℕ) ≤ (List.replicate 100 (0 : ℚ)).length ∧
    ((100 : ℕ) / 12) * (12 + 12 / 2) +
      (100 % 12 + min (12 / 2) (100 % 12)) = 152 ∧
    (apply_stuttering_voice (List.replicate 100 (0 : ℚ)) 23 (1 / 2)).map
      List.length = some 146 := by
  have hpy : pyInt ((23 : ℚ) * (1 / 2)) = 11 := by norm_num [pyInt]
  refine ⟨by norm_num [round_eq], by norm_num, by norm_num, by simp,
    by norm_num, ?_⟩
  have hv : apply_stuttering_voice (List.replicate 100 (0 : ℚ)) 23 (1 / 2) =
      some (stutterLoop (List.replicate 100 (0 : ℚ)) 11 0) := by
    show (if pyInt ((23 : ℚ) * (1 / 2)) = 0 then none
      else if pyInt ((23 : ℚ) * (1 / 2)) < 0 then some []
      else some (stutterLoop (List.replicate 100 (0 : ℚ))
        (pyInt ((23 : ℚ) * (1 / 2))).toNat 0)) = _
    rw [hpy, if_neg (by norm_num : ¬ (11 : ℤ) = 0),
      if_neg (by norm_num : ¬ (11 : ℤ) < 0)]
    rfl
  rw [hv, Option.map_some',
    stutterLoop_length (List.replicate 100 (0 : ℚ)) 11 (by norm_num) 0]
  simp [stutterLen]

/-- C6 (amended): with the segment length the source actually computes,
`S = int(sr * stutter_factor)` (truncation toward zero, not the claim's
rounding), and `0 < S ≤ L`, `S` even, the stutter output is the in-order
concatenation of each segment followed by its first half, and its length
is `⌊L/S⌋·(S + S/2)` plus the final partial segment's own length plus its
available first half; the claim's concrete case `L = 100`, `sr = 10`,
`stutter_factor = 1` (where rounding and truncation agree on `S = 10`)
gives length 150. -/
theorem stutter_segments_and_length (audio : List ℚ) (sr stutter_factor : ℚ)
    (S : ℕ) (hS : (S : ℤ) = pyInt (sr * stutter_factor)) (h0 : 0 < S)
    (hSL : S ≤ audio.length) (heven : S % 2 = 0) :
    apply_stuttering_voice audio sr stutter_factor =
      some (((segmentsOf S audio).map fun c => c ++ c.take (S / 2)).flatten) ∧
    (apply_stuttering_voice audio sr stutter_factor).map List.length =
      some ((audio.length / S) * (S + S / 2) +
        (if audio.length % S = 0 then 0
         else audio.length % S + min (S / 2) (audio.length % S))) := by
  have hv : apply_stuttering_voice audio sr stutter_factor =
      some (stutterLoop audio S 0) := by
    show (if pyInt (sr * stutter_factor) = 0 then none
      else if pyInt (sr * stutter_factor) < 0 then some []
      else some (stutterLoop audio (pyInt (sr * stutter_factor)).toNat 0)) = _
    rw [← hS, if_neg (by exact_mod_cast by omega : ¬ (S : ℤ) = 0),
      if_neg (by exact_mod_cast by omega : ¬ (S : ℤ) < 0), Int.toNat_natCast]
  constructor
  · rw [hv, stutterLoop_eq_segments audio S h0 0, List.drop_zero]
  · rw [hv, Option.map_some', stutterLoop_length audio S h0 0, Nat.sub_zero]
    rfl

/-- Witness for C6: the claim's concrete case, a buffer of length 100 at
`sr = 10`, `stutter_factor = 1` (so `S = 10`), output length 150. -/
theorem stutter_segments_and_length_witness :
    (((10 : ℕ) : ℤ) = pyInt ((10 : ℚ) * 1) ∧ (0 : ℕ) < 10 ∧
      10 ≤ (List.replicate 100 (0 : ℚ)).length ∧ 10 % 2 = 0) ∧
    (apply_stuttering_voice (List.replicate 100 (0 : ℚ)) 10 1).map List.length =
      some 150 := by
  have h := stutter_segments_and_length (List.replicate 100 (0 : ℚ)) 10 1 10
    (by norm_num [pyInt]) (by norm_num) (by simp) (by norm_num)
  refine ⟨⟨by norm_num [pyInt], by norm_num, by simp, by norm_num⟩, ?_⟩
  rw [h.2]
  simp

/-- C4 counterexample: buffer `[1]` is non-empty, `sr = 1 > 0` and
`stutter_factor = 1/2 ≥ 0`, yet `segment_length = int(1 · 1/2) = 0`, so
`range(0, len, 0)` raises `ValueError` instead of returning a buffer. -/
theorem stutter_zero_segment_raises :
    ([1] : List ℚ) ≠ [] ∧ (0 : ℚ) < 1 ∧ (0 : ℚ) ≤ 1 / 2 ∧
    apply_stuttering_voice [1] 1 (1 / 2) = none := by
  have hpy : pyInt ((1 : ℚ) * (1 / 2)) = 0 := by norm_num [pyInt]
  refine ⟨by simp, by norm_num, by norm_num, ?_⟩
  show (if pyInt ((1 : ℚ) * (1 / 2)) = 0 then none
    else if pyInt ((1 : ℚ) * (1 / 2)) < 0 then some []
    else some (stutterLoop [1] (pyInt ((1 : ℚ) * (1 / 2))).toNat 0)) = none
  rw [if_pos hpy]

/-- C4 (amended): `apply_stuttering_voice` returns a buffer whenever the
computed segment length is at least 1, and `apply_girl_voice` returns a
buffer whenever the fade window is at least 1 sample and fits in the
stretched buffer; outside those ranges the source raises (`none`). -/
theorem stutter_and_girl_return_buffers (audio : List ℚ)
    (sr stutter_factor : ℚ) (ps ts : List ℚ → List ℚ) (fl : ℕ)
    (hfl : fl = (pyInt ((3 / 100) * sr)).toNat) :
    (audio ≠ [] → 0 < sr → 0 ≤ stutter_factor →
      0 < pyInt (sr * stutter_factor) →
      (apply_stuttering_voice audio sr stutter_factor).isSome = true) ∧
    (1 ≤ fl → fl ≤ (ts (ps audio)).length →
      (apply_girl_voice ps ts audio sr).isSome = true) := by
  constructor
  · intro _ _ _ hpos
    show (if pyInt (sr * stutter_factor) = 0 then none
      else if pyInt (sr * stutter_factor) < 0 then some []
      else some (stutterLoop audio (pyInt (sr * stutter_factor)).toNat 0)).isSome
      = true
    rw [if_neg (by omega), if_neg (by omega)]
    rfl
  · intro h1 h2
    show (if (1 ≤ (pyInt ((3 / 100) * sr)).toNat ∧
          (pyInt ((3 / 100) * sr)).toNat ≤ (ts (ps audio)).length) ∨
        ((pyInt ((3 / 100) * sr)).toNat = 0 ∧ (ts (ps audio)).length = 0) then
        some (fadeEdges (ts (ps audio)) (pyInt ((3 / 100) * sr)).toNat)
      else none).isSome = true
    rw [← hfl, if_pos (Or.inl ⟨h1, h2⟩)]
    rfl

/-- Witness for C4 at buffer `[1, 1, 1]`, `sr = 100`,
`stutter_factor = 1`, externals the identity (fade window `int(3) = 3`
fits the 3-sample buffer). -/
theorem stutter_and_girl_return_buffers_witness :
    ((3 : ℕ) = (pyInt ((3 / 100) * (100 : ℚ))).toNat) ∧
    ((([1, 1, 1] : List ℚ) ≠ [] → (0 : ℚ) < 100 → (0 : ℚ) ≤ 1 →
      0 < pyInt ((100 : ℚ) * 1) →
      (apply_stuttering_voice [1, 1, 1] 100 1).isSome = true) ∧
    (1 ≤ 3 → 3 ≤ (id (id ([1, 1, 1] : List ℚ))).length →
      (apply_girl_voice id id [1, 1, 1] 100).isSome = true)) :=
  ⟨by
      rw [show pyInt ((3 / 100) * (100 : ℚ)) = 3 from by norm_num [pyInt]]
      rfl,
    stutter_and_girl_return_buffers [1, 1, 1] 100 1 id id 3
      (by
        rw [show pyInt ((3 / 100) * (100 : ℚ)) = 3 from by norm_num [pyInt]]
        rfl)⟩

/-- C5 counterexample: two runs of `apply_whisper_voice` on the same
buffer `[1]` but with different ambient RNG draws produce different
outputs, so the unseeded noise primitives are not reproducible. -/
theorem whisper_output_depends_on_rng :
    Prim.noisy Prim.whisper = true ∧
    runPrim Prim.whisper (fun _ => 0) [1] ≠ runPrim Prim.whisper (fun _ => 1) [1] := by
  refine ⟨rfl, ?_⟩
  intro hcontra
  simp only [runPrim, apply_whisper_voice, Option.some_inj] at hcontra
  have h0 := congrArg (fun l => l.getD 0 0) hcontra
  simp only [List.getD_eq_getElem?_getD, List.getElem?_ofFn] at h0
  simp [List.ofFnNthVal] at h0

/-- C5 (amended): every primitive that does not draw from `np.random`
is deterministic — its output does not depend on the ambient RNG stream;
the noise-injecting whisper, radio and glitch primitives do depend on it. -/
theorem noiseless_prims_deterministic (p : Prim) (hp : Prim.noisy p = false)
    (noise1 noise2 : ℕ → ℚ) (audio : List ℚ) :
    runPrim p noise1 audio = runPrim p noise2 audio := by
  cases p <;> first | rfl | simp [Prim.noisy] at hp

/-- Witness for C5 at the reversal primitive on buffer `[1]` with two
distinct RNG streams. -/
theorem noiseless_prims_deterministic_witness :
    Prim.noisy Prim.reversed = false ∧
    runPrim Prim.reversed (fun _ => 0) [1] =
      runPrim Prim.reversed (fun _ => 1) [1] :=
  ⟨rfl, noiseless_prims_deterministic Prim.reversed rfl (fun _ => 0)
    (fun _ => 1) [1]⟩

theorem alloc_write_frame (h : Heap) (v w : List ℚ) (r : ℕ)
    (hr : r < h.arrays.length) :
    ((h.alloc v).1.write (h.alloc v).2 w).read r = h.read r ∧
    (h.alloc v).2 ≠ r := by
  have hne : (h.alloc v).2 ≠ r := by
    show h.arrays.length ≠ r
    omega
  exact ⟨by rw [Heap.read_write_ne _ _ _ _ hne, Heap.read_alloc_of_lt _ _ _ hr],
    hne⟩

/-- C1 counterexample: on a heap with the single one-sample array `[1]`,
`increase_volume(·, 2)` leaves the input reference holding `[2]` — the
argument array was multiplied in place — and returns that same reference. -/
theorem increase_volume_mutates_input :
    (⟨[[1]]⟩ : Heap).read 0 = [(1 : ℚ)] ∧
    (increase_volume 2 ⟨[[1]]⟩ 0).1.read 0 ≠ [(1 : ℚ)] ∧
    (increase_volume 2 ⟨[[1]]⟩ 0).2 = 0 := by
  refine ⟨rfl, ?_, rfl⟩
  show (Heap.write ⟨[[1]]⟩ 0 (([1] : List ℚ).map fun x => x * 2)).read 0 ≠ _
  simp [Heap.write, Heap.read]

/-- C1 (amended): `apply_delay`, `apply_echo`, `apply_chorus` and
`apply_girl_voice` write only into freshly allocated arrays: the input
reference is unchanged and the returned reference is distinct from it;
`increase_volume` (the counterexample) instead mutates its argument in
place and returns it. -/
theorem frame_primitives_preserve_input (h : Heap) (r : ℕ)
    (hr : r < h.arrays.length)
    (sr delay_time feedback delay_factor decay depth : ℚ)
    (sinv : ℕ → ℚ) (ps ts : List ℚ → List ℚ) :
    ((apply_delay_ref sr delay_time feedback h r).1.read r = h.read r ∧
      (apply_delay_ref sr delay_time feedback h r).2 ≠ r) ∧
    ((apply_echo_ref sr delay_factor decay h r).1.read r = h.read r ∧
      (apply_echo_ref sr delay_factor decay h r).2 ≠ r) ∧
    ((apply_chorus_ref sinv depth sr h r).1.read r = h.read r ∧
      (apply_chorus_ref sinv depth sr h r).2 ≠ r) ∧
    (∀ (h2 : Heap) (r2 : ℕ),
      apply_girl_voice_ref ps ts sr h r = some (h2, r2) →
      h2.read r = h.read r ∧ r2 ≠ r) := by
  refine ⟨alloc_write_frame h _ _ r hr, alloc_write_frame h _ _ r hr,
    alloc_write_frame h _ _ r hr, ?_⟩
  intro h2 r2 heq
  simp only [apply_girl_voice_ref] at heq
  split at heq
  · rw [Option.some_inj, Prod.mk.injEq] at heq
    obtain ⟨heq1, heq2⟩ := heq
    subst heq1
    subst heq2
    exact alloc_write_frame h _ _ r hr
  · cases heq

/-- Witness for C1 on the one-array heap `[[1]]` with reference 0 and the
identity externals. -/
theorem frame_primitives_preserve_input_witness :
    (0 < (⟨[[1]]⟩ : Heap).arrays.length) ∧
    (((apply_delay_ref 1 1 (1 / 2) ⟨[[1]]⟩ 0).1.read 0 =
        (⟨[[1]]⟩ : Heap).read 0 ∧
      (apply_delay_ref 1 1 (1 / 2) ⟨[[1]]⟩ 0).2 ≠ 0) ∧
    ((apply_echo_ref 1 1 (1 / 2) ⟨[[1]]⟩ 0).1.read 0 =
        (⟨[[1]]⟩ : Heap).read 0 ∧
      (apply_echo_ref 1 1 (1 / 2) ⟨[[1]]⟩ 0).2 ≠ 0) ∧
    ((apply_chorus_ref (fun _ => 1) 1 1 ⟨[[1]]⟩ 0).1.read 0 =
        (⟨[[1]]⟩ : Heap).read 0 ∧
      (apply_chorus_ref (fun _ => 1) 1 1 ⟨[[1]]⟩ 0).2 ≠ 0) ∧
    (∀ (h2 : Heap) (r2 : ℕ),
      apply_girl_voice_ref id id 1 ⟨[[1]]⟩ 0 = some (h2, r2) →
      h2.read 0 = (⟨[[1]]⟩ : Heap).read 0 ∧ r2 ≠ 0)) :=
  ⟨by norm_num,
    frame_primitives_preserve_input ⟨[[1]]⟩ 0 (by norm_num) 1 1 (1 / 2) 1
      (1 / 2) 1 (fun _ => 1) id id⟩
